import Mathlib

/-!
Verification development for the repository's synthesis script (synth.py).

The script runs five steps in a straight line: it invokes an external code
generator, copies the generated files into the destination tree while
skipping a hard-coded exclusion list, patches three generated client
modules by a literal substring replacement, copies a bundle of template
files unconditionally, and finally runs two external post-processing
commands whose exit codes it never inspects.

File trees are modelled as maps from relative paths to optional contents,
and file contents as lists of characters.  The hard-coded path lists, the
search and replacement strings, and the step sequencing are taken directly
from the source; the semantics of the library calls the script makes
(copy, replace, the failure behaviour) is modelled from the
specification, since the library itself is not part of this repository.
-/

set_option autoImplicit false

namespace SynthSpec

abbrev RelPath := String
abbrev Content := List Char
abbrev FileTree := RelPath → Option Content

/-- The exclusion list passed to the copy step, verbatim from the source. -/
def excludes : List RelPath := ["src/index.js", "README.md", "package.json"]

/-- The three patch-target paths, verbatim from the source. -/
def patchTargets : List RelPath :=
  ["src/v2/config_service_v2_client.js",
   "src/v2/logging_service_v2_client.js",
   "src/v2/metrics_service_v2_client.js"]

/-- The literal search string of the patch step, verbatim from the source. -/
def searchStr : Content := "../../package.json".toList

/-- The literal replacement string of the patch step, verbatim from the source. -/
def replStr : Content := "../../../package.json".toList

/-- Boolean test that `s` is an initial segment of `l`. -/
def isPre : List Char → List Char → Bool
  | [], _ => true
  | _ :: _, [] => false
  | a :: as, b :: bs => if a = b then isPre as bs else false

/-- Recursion core of `listReplace`; the fuel argument is only there to
make the recursion structural, every use supplies at least the length of
the scanned list. -/
def replaceGo (sea rep : List Char) : Nat → List Char → List Char
  | _, [] => []
  | 0, l => l
  | n + 1, c :: cs =>
    if sea ≠ [] ∧ isPre sea (c :: cs) = true then
      rep ++ replaceGo sea rep n ((c :: cs).drop sea.length)
    else
      c :: replaceGo sea rep n cs

/-- Modelled from the spec: the patch operation "performs a literal
(non-regex) substring replacement of every occurrence of `search` with
`replacement`", scanning left to right over the file content.  The
concrete replace routine lives in the external library, not in this
repository. -/
def listReplace (sea rep l : List Char) : List Char :=
  replaceGo sea rep l.length l

/-- Recursion core of `countOcc`, with the same fuel convention as
`replaceGo`. -/
def countGo (sea : List Char) : Nat → List Char → Nat
  | _, [] => 0
  | 0, _ => 0
  | n + 1, c :: cs =>
    if sea ≠ [] ∧ isPre sea (c :: cs) = true then
      countGo sea n ((c :: cs).drop sea.length) + 1
    else
      countGo sea n cs

/-- The number of (non-overlapping, leftmost-first) occurrences of `sea`
in a content, the counting convention used by the testable properties of
the spec. -/
def countOcc (sea l : List Char) : Nat :=
  countGo sea l.length l

/-- Modelled from the spec: the copy step "copies every file in
`file_set` to the destination tree except those whose relative path
matches an entry in `excludes`", overwriting prior versions of included
files and leaving every other destination file untouched.  The concrete
copy routine lives in the external library, not in this repository. -/
def copyStep (fileSet : FileTree) (excl : List RelPath) (dest : FileTree) : FileTree :=
  fun p =>
    if p ∈ excl then dest p
    else
      match fileSet p with
      | some c => some c
      | none => dest p

/-- Overwrite one file of a tree with the patched version of content `c`. -/
def applyPatch (sea rep : List Char) (p : RelPath) (c : Content) (d : FileTree) : FileTree :=
  fun q => if q = p then some (listReplace sea rep c) else d q

/-- Modelled from the spec: the patch step processes its path list in
order; for each path it opens the file, replaces every occurrence of the
search string, and writes the result back; "if a path is missing, the
operation fails with a file-not-found condition".  On failure the tree
reached so far is returned as the error value. -/
def replaceStep (sea rep : List Char) : List RelPath → FileTree → Except FileTree FileTree
  | [], d => Except.ok d
  | p :: ps, d =>
    match d p with
    | none => Except.error d
    | some c => replaceStep sea rep ps (applyPatch sea rep p c d)

/-- The five steps of the script, in their source order. -/
inductive Step where
  | generate
  | copy
  | patch
  | templateCopy
  | postProcess
deriving DecidableEq

/-- Outcome of a run: the trace records which steps were started. -/
inductive RunResult where
  | ok (dest : FileTree)
  | failed (s : Step) (dest : FileTree)

/-- The whole script, translated from the source: generate (an external
call, represented by its possibly-absent output tree), copy with the
hard-coded excludes, patch the three targets, copy the templates with no
excludes, then run the two post-processing commands whose exit codes
`e1` and `e2` are taken as inputs and never inspected.  Failure of the
generate or patch step aborts the run at that point, as the spec's
failure semantics require. -/
def runSynth (gen : Option FileTree) (tpl : FileTree) (e1 e2 : Int) (dest : FileTree) :
    List Step × RunResult :=
  match gen with
  | none => ([Step.generate], RunResult.failed Step.generate dest)
  | some lib =>
    match replaceStep searchStr replStr patchTargets (copyStep lib excludes dest) with
    | Except.error dF => ([Step.generate, Step.copy, Step.patch], RunResult.failed Step.patch dF)
    | Except.ok d2 =>
      ([Step.generate, Step.copy, Step.patch, Step.templateCopy, Step.postProcess],
       RunResult.ok (copyStep tpl [] d2))

/-- The destination tree at the end of a run (also on a failed run). -/
def finalTreeOf : List Step × RunResult → FileTree
  | (_, RunResult.ok d) => d
  | (_, RunResult.failed _ d) => d

/-- Whether a run completed all five steps. -/
def runOk (r : List Step × RunResult) : Bool :=
  match r.2 with
  | RunResult.ok _ => true
  | RunResult.failed _ _ => false

/-! ### Basic facts about the scanning primitives -/

theorem isPre_iff (s : List Char) : ∀ l : List Char, isPre s l = true ↔ ∃ t, s ++ t = l := by
  induction s with
  | nil =>
    intro l
    simp [isPre]
  | cons a as ih =>
    intro l
    cases l with
    | nil => simp [isPre]
    | cons b bs =>
      show (if a = b then isPre as bs else false) = true ↔ _
      by_cases hab : a = b
      · subst hab
        simp [ih bs]
      · simp [if_neg hab, hab]

theorem isPre_length {s l : List Char} (h : isPre s l = true) : s.length ≤ l.length := by
  obtain ⟨t, ht⟩ := (isPre_iff s l).mp h
  subst ht
  simp

theorem isPre_append_drop {s l : List Char} (h : isPre s l = true) :
    s ++ l.drop s.length = l := by
  obtain ⟨t, ht⟩ := (isPre_iff s l).mp h
  subst ht
  rw [List.drop_left]

theorem isPre_self_append (s t : List Char) : isPre s (s ++ t) = true :=
  (isPre_iff s (s ++ t)).mpr ⟨t, rfl⟩

theorem replaceGo_fuel (sea rep : List Char) :
    ∀ n m (l : List Char), l.length ≤ n → l.length ≤ m →
      replaceGo sea rep n l = replaceGo sea rep m l := by
  intro n
  induction n with
  | zero =>
    intro m l hn _
    have hl : l = [] := List.length_eq_zero.mp (Nat.le_zero.mp hn)
    subst hl
    cases m <;> rfl
  | succ n ih =>
    intro m l hn hm
    cases l with
    | nil => cases m <;> rfl
    | cons c cs =>
      cases m with
      | zero => simp at hm
      | succ m =>
        show (if sea ≠ [] ∧ isPre sea (c :: cs) = true then
            rep ++ replaceGo sea rep n ((c :: cs).drop sea.length)
          else c :: replaceGo sea rep n cs) =
          (if sea ≠ [] ∧ isPre sea (c :: cs) = true then
            rep ++ replaceGo sea rep m ((c :: cs).drop sea.length)
          else c :: replaceGo sea rep m cs)
        split
        next h =>
          have hs : 0 < sea.length := List.length_pos.mpr h.1
          have hd : ((c :: cs).drop sea.length).length ≤ n := by
            simp only [List.length_drop, List.length_cons]
            simp only [List.length_cons] at hn
            omega
          have hd' : ((c :: cs).drop sea.length).length ≤ m := by
            simp only [List.length_drop, List.length_cons]
            simp only [List.length_cons] at hm
            omega
          rw [ih m _ hd hd']
        next =>
          have hc : cs.length ≤ n := by simp only [List.length_cons] at hn; omega
          have hc' : cs.length ≤ m := by simp only [List.length_cons] at hm; omega
          rw [ih m _ hc hc']

theorem countGo_fuel (sea : List Char) :
    ∀ n m (l : List Char), l.length ≤ n → l.length ≤ m →
      countGo sea n l = countGo sea m l := by
  intro n
  induction n with
  | zero =>
    intro m l hn _
    have hl : l = [] := List.length_eq_zero.mp (Nat.le_zero.mp hn)
    subst hl
    cases m <;> rfl
  | succ n ih =>
    intro m l hn hm
    cases l with
    | nil => cases m <;> rfl
    | cons c cs =>
      cases m with
      | zero => simp at hm
      | succ m =>
        show (if sea ≠ [] ∧ isPre sea (c :: cs) = true then
            countGo sea n ((c :: cs).drop sea.length) + 1
          else countGo sea n cs) =
          (if sea ≠ [] ∧ isPre sea (c :: cs) = true then
            countGo sea m ((c :: cs).drop sea.length) + 1
          else countGo sea m cs)
        split
        next h =>
          have hs : 0 < sea.length := List.length_pos.mpr h.1
          have hd : ((c :: cs).drop sea.length).length ≤ n := by
            simp only [List.length_drop, List.length_cons]
            simp only [List.length_cons] at hn
            omega
          have hd' : ((c :: cs).drop sea.length).length ≤ m := by
            simp only [List.length_drop, List.length_cons]
            simp only [List.length_cons] at hm
            omega
          rw [ih m _ hd hd']
        next =>
          have hc : cs.length ≤ n := by simp only [List.length_cons] at hn; omega
          have hc' : cs.length ≤ m := by simp only [List.length_cons] at hm; omega
          rw [ih m _ hc hc']

theorem listReplace_nil (sea rep : List Char) : listReplace sea rep [] = [] := rfl

theorem listReplace_cons (sea rep : List Char) (c : Char) (cs : List Char) :
    listReplace sea rep (c :: cs) =
      if sea ≠ [] ∧ isPre sea (c :: cs) = true then
        rep ++ listReplace sea rep ((c :: cs).drop sea.length)
      else c :: listReplace sea rep cs := by
  show (if sea ≠ [] ∧ isPre sea (c :: cs) = true then
      rep ++ replaceGo sea rep cs.length ((c :: cs).drop sea.length)
    else c :: replaceGo sea rep cs.length cs) = _
  split
  next h =>
    have hs : 0 < sea.length := List.length_pos.mpr h.1
    have hd : ((c :: cs).drop sea.length).length ≤ cs.length := by
      simp only [List.length_drop, List.length_cons]
      omega
    rw [replaceGo_fuel sea rep cs.length _ _ hd le_rfl]
    rfl
  next => rfl

theorem countOcc_nil (sea : List Char) : countOcc sea [] = 0 := rfl

theorem countOcc_cons (sea : List Char) (c : Char) (cs : List Char) :
    countOcc sea (c :: cs) =
      if sea ≠ [] ∧ isPre sea (c :: cs) = true then
        countOcc sea ((c :: cs).drop sea.length) + 1
      else countOcc sea cs := by
  show (if sea ≠ [] ∧ isPre sea (c :: cs) = true then
      countGo sea cs.length ((c :: cs).drop sea.length) + 1
    else countGo sea cs.length cs) = _
  split
  next h =>
    have hs : 0 < sea.length := List.length_pos.mpr h.1
    have hd : ((c :: cs).drop sea.length).length ≤ cs.length := by
      simp only [List.length_drop, List.length_cons]
      omega
    rw [countGo_fuel sea cs.length _ _ hd le_rfl]
    rfl
  next => rfl

theorem listReplace_cons_pos {sea : List Char} (rep : List Char) {c : Char} {cs : List Char}
    (h1 : sea ≠ []) (h2 : isPre sea (c :: cs) = true) :
    listReplace sea rep (c :: cs) = rep ++ listReplace sea rep ((c :: cs).drop sea.length) := by
  rw [listReplace_cons, if_pos ⟨h1, h2⟩]

theorem listReplace_cons_neg {sea : List Char} (rep : List Char) {c : Char} {cs : List Char}
    (h : ¬(sea ≠ [] ∧ isPre sea (c :: cs) = true)) :
    listReplace sea rep (c :: cs) = c :: listReplace sea rep cs := by
  rw [listReplace_cons, if_neg h]

theorem countOcc_cons_pos {sea : List Char} {c : Char} {cs : List Char}
    (h1 : sea ≠ []) (h2 : isPre sea (c :: cs) = true) :
    countOcc sea (c :: cs) = countOcc sea ((c :: cs).drop sea.length) + 1 := by
  rw [countOcc_cons, if_pos ⟨h1, h2⟩]

theorem countOcc_cons_neg {sea : List Char} {c : Char} {cs : List Char}
    (h : ¬(sea ≠ [] ∧ isPre sea (c :: cs) = true)) :
    countOcc sea (c :: cs) = countOcc sea cs := by
  rw [countOcc_cons, if_neg h]

theorem drop_cons_sub {a : Char} {cs : List Char} {m : Nat} (hm : 0 < m) :
    (a :: cs).drop m = cs.drop (m - 1) := by
  conv_lhs => rw [show m = (m - 1) + 1 by omega]
  rw [List.drop_succ_cons]

/-- Dropping a prefix never increases the occurrence count, and dropping
at most one search-length never loses more than one occurrence.  Both
facts are proved together by strong induction on the list length. -/
theorem countOcc_drop_facts (sea : List Char) :
    ∀ n, ∀ l : List Char, l.length ≤ n →
      (∀ k, countOcc sea (l.drop k) ≤ countOcc sea l) ∧
      (∀ k, k ≤ sea.length → countOcc sea l ≤ countOcc sea (l.drop k) + 1) := by
  intro n
  induction n with
  | zero =>
    intro l hl
    have hnil : l = [] := List.length_eq_zero.mp (Nat.le_zero.mp hl)
    subst hnil
    exact ⟨fun k => by simp, fun k _ => by simp⟩
  | succ n ih =>
    intro l hl
    constructor
    · intro k
      cases k with
      | zero => simp
      | succ k =>
        cases l with
        | nil => simp
        | cons a cs =>
          have hcs : cs.length ≤ n := by simp only [List.length_cons] at hl; omega
          rw [List.drop_succ_cons]
          by_cases hm : sea ≠ [] ∧ isPre sea (a :: cs) = true
          · have hs : 0 < sea.length := List.length_pos.mpr hm.1
            rw [countOcc_cons_pos hm.1 hm.2, drop_cons_sub hs]
            by_cases hk : sea.length - 1 ≤ k
            · have hsplit : cs.drop k = (cs.drop (sea.length - 1)).drop (k - (sea.length - 1)) := by
                rw [List.drop_drop]
                congr 1
                omega
              rw [hsplit]
              have hlen : (cs.drop (sea.length - 1)).length ≤ n := by
                simp only [List.length_drop]
                omega
              exact le_trans ((ih _ hlen).1 _) (Nat.le_succ _)
            · have hu : (cs.drop k).length ≤ n := by
                simp only [List.length_drop]
                omega
              have hsplit : cs.drop (sea.length - 1) = (cs.drop k).drop (sea.length - 1 - k) := by
                rw [List.drop_drop]
                congr 1
                omega
              rw [hsplit]
              exact (ih _ hu).2 _ (by omega)
          · rw [countOcc_cons_neg hm]
            exact (ih cs hcs).1 k
    · intro k hk
      cases k with
      | zero => exact Nat.le_succ _
      | succ k =>
        cases l with
        | nil => simp
        | cons a cs =>
          have hcs : cs.length ≤ n := by simp only [List.length_cons] at hl; omega
          by_cases hm : sea ≠ [] ∧ isPre sea (a :: cs) = true
          · have hs : 0 < sea.length := List.length_pos.mpr hm.1
            rw [countOcc_cons_pos hm.1 hm.2]
            have hsplit : (a :: cs).drop sea.length =
                ((a :: cs).drop (k + 1)).drop (sea.length - (k + 1)) := by
              rw [List.drop_drop]
              congr 1
              omega
            rw [hsplit, List.drop_succ_cons]
            have hu : (cs.drop k).length ≤ n := by
              simp only [List.length_drop]
              omega
            exact Nat.add_le_add_right ((ih _ hu).1 _) 1
          · rw [countOcc_cons_neg hm, List.drop_succ_cons]
            exact (ih cs hcs).2 k (by omega)

theorem countOcc_drop_le (sea l : List Char) (k : Nat) :
    countOcc sea (l.drop k) ≤ countOcc sea l :=
  (countOcc_drop_facts sea l.length l le_rfl).1 k

theorem countOcc_le_drop_succ (sea l : List Char) {k : Nat} (hk : k ≤ sea.length) :
    countOcc sea l ≤ countOcc sea (l.drop k) + 1 :=
  (countOcc_drop_facts sea l.length l le_rfl).2 k hk

theorem countOcc_cons_le (sea : List Char) (a : Char) (cs : List Char) :
    countOcc sea cs ≤ countOcc sea (a :: cs) := by
  by_cases hm : sea ≠ [] ∧ isPre sea (a :: cs) = true
  · have hs : 0 < sea.length := List.length_pos.mpr hm.1
    rw [countOcc_cons_pos hm.1 hm.2, drop_cons_sub hs]
    exact countOcc_le_drop_succ sea cs (by omega)
  · rw [countOcc_cons_neg hm]

theorem countOcc_append_left_le (sea pre l : List Char) :
    countOcc sea l ≤ countOcc sea (pre ++ l) := by
  induction pre with
  | nil => simp
  | cons a ps ih =>
    rw [List.cons_append]
    exact le_trans ih (countOcc_cons_le sea a (ps ++ l))

theorem countOcc_self_append {p : List Char} (hp : p ≠ []) (x : List Char) :
    countOcc p (p ++ x) = countOcc p x + 1 := by
  cases p with
  | nil => exact absurd rfl hp
  | cons a as =>
    rw [List.cons_append, countOcc_cons_pos hp
      (by rw [← List.cons_append]; exact isPre_self_append _ x)]
    rw [← List.cons_append, List.drop_left]

/-- A content with no occurrence of the search string is returned
unchanged by the replace operation. -/
theorem listReplace_eq_self {sea : List Char} (rep : List Char) :
    ∀ l : List Char, countOcc sea l = 0 → listReplace sea rep l = l := by
  have main : ∀ n, ∀ l : List Char, l.length ≤ n →
      countOcc sea l = 0 → listReplace sea rep l = l := by
    intro n
    induction n with
    | zero =>
      intro l hl _
      have hnil : l = [] := List.length_eq_zero.mp (Nat.le_zero.mp hl)
      subst hnil
      rfl
    | succ n ih =>
      intro l hl h0
      cases l with
      | nil => rfl
      | cons a cs =>
        have hcs : cs.length ≤ n := by simp only [List.length_cons] at hl; omega
        by_cases hm : sea ≠ [] ∧ isPre sea (a :: cs) = true
        · rw [countOcc_cons_pos hm.1 hm.2] at h0
          exact absurd h0 (Nat.succ_ne_zero _)
        · rw [countOcc_cons_neg hm] at h0
          rw [listReplace_cons_neg rep hm, ih cs hcs h0]
  exact fun l => main l.length l le_rfl

/-- Every occurrence of the search string contributes (at least) one
occurrence of the replacement string to the output of the replace
operation. -/
theorem countOcc_le_countOcc_replace {sea rep : List Char} (hrep : rep ≠ []) :
    ∀ l : List Char, countOcc sea l ≤ countOcc rep (listReplace sea rep l) := by
  have main : ∀ n, ∀ l : List Char, l.length ≤ n →
      countOcc sea l ≤ countOcc rep (listReplace sea rep l) := by
    intro n
    induction n with
    | zero =>
      intro l hl
      have hnil : l = [] := List.length_eq_zero.mp (Nat.le_zero.mp hl)
      subst hnil
      simp [countOcc_nil]
    | succ n ih =>
      intro l hl
      cases l with
      | nil => simp [countOcc_nil]
      | cons a cs =>
        have hcs : cs.length ≤ n := by simp only [List.length_cons] at hl; omega
        by_cases hm : sea ≠ [] ∧ isPre sea (a :: cs) = true
        · have hs : 0 < sea.length := List.length_pos.mpr hm.1
          rw [countOcc_cons_pos hm.1 hm.2, listReplace_cons_pos rep hm.1 hm.2,
            countOcc_self_append hrep]
          have hd : ((a :: cs).drop sea.length).length ≤ n := by
            simp only [List.length_drop, List.length_cons]
            omega
          exact Nat.add_le_add_right (ih _ hd) 1
        · rw [countOcc_cons_neg hm, listReplace_cons_neg rep hm]
          exact le_trans (ih cs hcs) (countOcc_cons_le rep a _)
  exact fun l => main l.length l le_rfl

/-- Length of the output of the replace operation, when the replacement
is at least as long as the search string. -/
theorem length_listReplace {sea rep : List Char} (hle : sea.length ≤ rep.length) :
    ∀ l : List Char,
      (listReplace sea rep l).length =
        l.length + (rep.length - sea.length) * countOcc sea l := by
  have main : ∀ n, ∀ l : List Char, l.length ≤ n →
      (listReplace sea rep l).length =
        l.length + (rep.length - sea.length) * countOcc sea l := by
    intro n
    induction n with
    | zero =>
      intro l hl
      have hnil : l = [] := List.length_eq_zero.mp (Nat.le_zero.mp hl)
      subst hnil
      simp [listReplace_nil, countOcc_nil]
    | succ n ih =>
      intro l hl
      cases l with
      | nil => simp [listReplace_nil, countOcc_nil]
      | cons a cs =>
        have hcs : cs.length ≤ n := by simp only [List.length_cons] at hl; omega
        by_cases hm : sea ≠ [] ∧ isPre sea (a :: cs) = true
        · have hs : 0 < sea.length := List.length_pos.mpr hm.1
          have hsl : sea.length ≤ (a :: cs).length := isPre_length hm.2
          rw [countOcc_cons_pos hm.1 hm.2, listReplace_cons_pos rep hm.1 hm.2]
          have hd : ((a :: cs).drop sea.length).length ≤ n := by
            simp only [List.length_drop, List.length_cons]
            simp only [List.length_cons] at hl
            omega
          rw [List.length_append, ih _ hd]
          simp only [List.length_drop, List.length_cons]
          simp only [List.length_cons] at hsl
          rw [Nat.mul_add]
          omega
        · rw [countOcc_cons_neg hm, listReplace_cons_neg rep hm]
          simp only [List.length_cons, ih cs hcs]
          omega
  exact fun l => main l.length l le_rfl

/-- When the replacement string is the search string with a prefix glued
on (the shape used by the script, where the replacement is `../` plus
the search string), replacing never decreases the number of occurrences
of the search string itself. -/
theorem countOcc_le_replace_self {sea : List Char} (hsea : sea ≠ []) (pre : List Char) :
    ∀ l : List Char, countOcc sea l ≤ countOcc sea (listReplace sea (pre ++ sea) l) := by
  have main : ∀ n, ∀ l : List Char, l.length ≤ n →
      countOcc sea l ≤ countOcc sea (listReplace sea (pre ++ sea) l) := by
    intro n
    induction n with
    | zero =>
      intro l hl
      have hnil : l = [] := List.length_eq_zero.mp (Nat.le_zero.mp hl)
      subst hnil
      simp [countOcc_nil]
    | succ n ih =>
      intro l hl
      cases l with
      | nil => simp [countOcc_nil]
      | cons a cs =>
        have hcs : cs.length ≤ n := by simp only [List.length_cons] at hl; omega
        by_cases hm : sea ≠ [] ∧ isPre sea (a :: cs) = true
        · have hs : 0 < sea.length := List.length_pos.mpr hm.1
          rw [countOcc_cons_pos hm.1 hm.2, listReplace_cons_pos _ hm.1 hm.2,
            List.append_assoc]
          have hd : ((a :: cs).drop sea.length).length ≤ n := by
            simp only [List.length_drop, List.length_cons]
            omega
          calc countOcc sea ((a :: cs).drop sea.length) + 1
              ≤ countOcc sea (listReplace sea (pre ++ sea) ((a :: cs).drop sea.length)) + 1 :=
                Nat.add_le_add_right (ih _ hd) 1
            _ = countOcc sea (sea ++ listReplace sea (pre ++ sea) ((a :: cs).drop sea.length)) :=
                (countOcc_self_append hsea _).symm
            _ ≤ countOcc sea (pre ++ (sea ++ listReplace sea (pre ++ sea) ((a :: cs).drop sea.length))) :=
                countOcc_append_left_le sea pre _
        · rw [countOcc_cons_neg hm, listReplace_cons_neg _ hm]
          exact le_trans (ih cs hcs) (countOcc_cons_le sea a _)
  exact fun l => main l.length l le_rfl

/-! ### Facts about the tree-level operations -/

theorem copyStep_mem {fs : FileTree} {excl : List RelPath} {dest : FileTree} {p : RelPath}
    (hp : p ∈ excl) : copyStep fs excl dest p = dest p := by
  simp [copyStep, hp]

theorem copyStep_not_mem_some {fs : FileTree} {excl : List RelPath} {dest : FileTree}
    {p : RelPath} {c : Content} (hp : p ∉ excl) (hc : fs p = some c) :
    copyStep fs excl dest p = some c := by
  simp [copyStep, hp, hc]

theorem copyStep_not_mem_none {fs : FileTree} {excl : List RelPath} {dest : FileTree}
    {p : RelPath} (hp : p ∉ excl) (hc : fs p = none) :
    copyStep fs excl dest p = dest p := by
  simp [copyStep, hp, hc]

theorem replaceStep_preserve (sea rep : List Char) :
    ∀ (ps : List RelPath) (d d' : FileTree), replaceStep sea rep ps d = Except.ok d' →
      ∀ q, q ∉ ps → d' q = d q := by
  intro ps
  induction ps with
  | nil =>
    intro d d' h q _
    simp only [replaceStep, Except.ok.injEq] at h
    rw [h]
  | cons p ps ih =>
    intro d d' h q hq
    cases hdp : d p with
    | none =>
      simp only [replaceStep, hdp] at h
      exact Except.noConfusion h
    | some cp =>
      simp only [replaceStep, hdp] at h
      have hqp : q ≠ p := fun e => hq (e ▸ List.mem_cons_self p ps)
      have hqs : q ∉ ps := fun e => hq (List.mem_cons_of_mem p e)
      rw [ih _ d' h q hqs]
      simp [applyPatch, hqp]

theorem replaceStep_at (sea rep : List Char) :
    ∀ (ps : List RelPath), ps.Nodup → ∀ (d d' : FileTree),
      replaceStep sea rep ps d = Except.ok d' →
      ∀ q ∈ ps, ∀ c, d q = some c → d' q = some (listReplace sea rep c) := by
  intro ps
  induction ps with
  | nil =>
    intro _ d d' _ q hq
    simp at hq
  | cons p ps ih =>
    intro hnd d d' h q hq c hc
    have hpps : p ∉ ps := (List.nodup_cons.mp hnd).1
    have hnd' : ps.Nodup := (List.nodup_cons.mp hnd).2
    cases hdp : d p with
    | none =>
      simp only [replaceStep, hdp] at h
      exact Except.noConfusion h
    | some cp =>
      simp only [replaceStep, hdp] at h
      rcases List.mem_cons.mp hq with hqp | hqs
      · subst hqp
        have hcc : cp = c := by
          rw [hdp] at hc
          exact Option.some.inj hc
        subst hcc
        rw [replaceStep_preserve sea rep ps _ d' h q hpps]
        simp [applyPatch]
      · have hqp : q ≠ p := fun e => hpps (e ▸ hqs)
        exact ih hnd' _ d' h q hqs c (by simp [applyPatch, hqp, hc])

theorem replaceStep_ok_exists (sea rep : List Char) :
    ∀ (ps : List RelPath) (d : FileTree), (∀ q ∈ ps, d q ≠ none) →
      ∃ d', replaceStep sea rep ps d = Except.ok d' := by
  intro ps
  induction ps with
  | nil => exact fun d _ => ⟨d, rfl⟩
  | cons p ps ih =>
    intro d h
    cases hdp : d p with
    | none => exact absurd hdp (h p (List.mem_cons_self p ps))
    | some c =>
      obtain ⟨d', hd'⟩ := ih (applyPatch sea rep p c d) (by
        intro q hq
        by_cases hqp : q = p
        · subst hqp; simp [applyPatch]
        · simp only [applyPatch, if_neg hqp]
          exact h q (List.mem_cons_of_mem p hq))
      exact ⟨d', by simp only [replaceStep, hdp]; exact hd'⟩

theorem replaceStep_error_of_missing (sea rep : List Char) :
    ∀ (ps : List RelPath) (d : FileTree) (t : RelPath), t ∈ ps → d t = none →
      ∃ dF, replaceStep sea rep ps d = Except.error dF := by
  intro ps
  induction ps with
  | nil =>
    intro d t ht
    simp at ht
  | cons p ps ih =>
    intro d t ht htn
    cases hdp : d p with
    | none => exact ⟨d, by simp only [replaceStep, hdp]⟩
    | some c =>
      have htp : t ≠ p := fun e => by rw [e, hdp] at htn; cases htn
      have hts : t ∈ ps := (List.mem_cons.mp ht).resolve_left htp
      obtain ⟨dF, hdF⟩ := ih (applyPatch sea rep p c d) t hts
        (by simp only [applyPatch, if_neg htp]; exact htn)
      exact ⟨dF, by simp only [replaceStep, hdp]; exact hdF⟩

/-! ### Decidable facts about the hard-coded lists and strings -/

theorem patchTargets_nodup : patchTargets.Nodup := by decide

theorem target_not_excluded : ∀ t ∈ patchTargets, t ∉ excludes := by decide

theorem excluded_not_target : ∀ p ∈ excludes, p ∉ patchTargets := by decide

theorem searchStr_ne_nil : searchStr ≠ [] := by decide

theorem replStr_ne_nil : replStr ≠ [] := by decide

theorem replStr_eq_dotdot_append : replStr = "../".toList ++ searchStr := by decide

theorem searchStr_shorter : searchStr.length ≤ replStr.length := by decide

/-- Pointwise description of the destination tree after one complete run,
for a generated set that contains every patch target (which also makes
the run complete). -/
theorem run_char (lib tpl : FileTree) (e1 e2 : Int) (dest : FileTree)
    (hlib : ∀ t ∈ patchTargets, lib t ≠ none) :
    runOk (runSynth (some lib) tpl e1 e2 dest) = true ∧
    ∀ q, finalTreeOf (runSynth (some lib) tpl e1 e2 dest) q =
      match tpl q with
      | some tc => some tc
      | none =>
        if q ∈ patchTargets then (lib q).map (listReplace searchStr replStr)
        else copyStep lib excludes dest q := by
  have hc1 : ∀ t ∈ patchTargets, copyStep lib excludes dest t = lib t := by
    intro t ht
    cases hlt : lib t with
    | none => exact absurd hlt (hlib t ht)
    | some c => exact copyStep_not_mem_some (target_not_excluded t ht) hlt
  obtain ⟨d2, hd2⟩ := replaceStep_ok_exists searchStr replStr patchTargets
    (copyStep lib excludes dest) (fun q hq => by rw [hc1 q hq]; exact hlib q hq)
  constructor
  · simp [runOk, runSynth, hd2]
  · intro q
    have hfin : finalTreeOf (runSynth (some lib) tpl e1 e2 dest) = copyStep tpl [] d2 := by
      simp [finalTreeOf, runSynth, hd2]
    rw [hfin]
    cases htq : tpl q with
    | some tc => exact copyStep_not_mem_some (by simp) htq
    | none =>
      rw [copyStep_not_mem_none (by simp) htq]
      by_cases hqt : q ∈ patchTargets
      · simp only [if_pos hqt]
        cases hlq : lib q with
        | none => exact absurd hlq (hlib q hqt)
        | some c =>
          have hcq : copyStep lib excludes dest q = some c := by rw [hc1 q hqt, hlq]
          rw [replaceStep_at searchStr replStr patchTargets patchTargets_nodup _ d2 hd2 q hqt c hcq]
          rfl
      · simp only [if_neg hqt]
        exact replaceStep_preserve searchStr replStr patchTargets _ d2 hd2 q hqt

/-! ### Claim C1 -/

def c1lib : FileTree := fun p =>
  if p ∈ patchTargets then some ['x']
  else if p = "package.json" then some ['g'] else none

def c1tpl : FileTree := fun p => if p = "package.json" then some ['t'] else none

def c1wtpl : FileTree := fun _ => none

def c1dest : FileTree := fun p => if p = "package.json" then some ['o'] else none

/-- Claim C1, counterexample: the claim says an excluded path present in
the generated set is never overwritten by any step of a complete run,
including the later template copy.  That is false: the template copy has
no exclusion list, so a template file at an excluded path (here
`package.json`) does overwrite the destination file. -/
theorem c1_counterexample :
    "package.json" ∈ excludes ∧
    c1lib "package.json" ≠ none ∧
    runOk (runSynth (some c1lib) c1tpl 0 0 c1dest) = true ∧
    finalTreeOf (runSynth (some c1lib) c1tpl 0 0 c1dest) "package.json" ≠
      c1dest "package.json" :=
  ⟨by decide, by decide, by decide, by decide⟩

/-- Claim C1 (amended): for every file of the generated set whose
relative path is an exclusion entry, provided the template set does not
itself carry that path, the destination file's content after a complete
run equals its content before the run (the generated-file copy skips it
and the patch step never touches excluded paths). -/
theorem c1_excluded_untouched (lib tpl dest : FileTree) (e1 e2 : Int) (p : RelPath)
    (hp : p ∈ excludes) (hgen : lib p ≠ none) (htpl : tpl p = none)
    (hok : runOk (runSynth (some lib) tpl e1 e2 dest) = true) :
    finalTreeOf (runSynth (some lib) tpl e1 e2 dest) p = dest p := by
  cases hrep : replaceStep searchStr replStr patchTargets (copyStep lib excludes dest) with
  | error dF => simp [runOk, runSynth, hrep] at hok
  | ok d2 =>
    have hfin : finalTreeOf (runSynth (some lib) tpl e1 e2 dest) = copyStep tpl [] d2 := by
      simp [finalTreeOf, runSynth, hrep]
    rw [hfin, copyStep_not_mem_none (by simp) htpl,
      replaceStep_preserve searchStr replStr patchTargets _ d2 hrep p (excluded_not_target p hp),
      copyStep_mem hp]

/-- Witness for the amended C1 at a concrete run. -/
theorem c1_excluded_untouched_witness :
    finalTreeOf (runSynth (some c1lib) c1wtpl 0 0 c1dest) "package.json" =
      c1dest "package.json" :=
  c1_excluded_untouched c1lib c1wtpl c1dest 0 0 "package.json"
    (by decide) (by decide) rfl (by decide)

/-! ### Claim C2 -/

/-- Claim C2: every file of the generated set whose relative path is not
in the exclusion list is present, byte-identical, in the destination
tree after the copy step, overwriting any prior version. -/
theorem c2_inclusion_copy (lib dest : FileTree) (p : RelPath) (c : Content)
    (hp : p ∉ excludes) (hc : lib p = some c) :
    copyStep lib excludes dest p = some c :=
  copyStep_not_mem_some hp hc

def c2lib : FileTree := fun p => if p = "src/v2/doc.js" then some ['a'] else none

def c2dest : FileTree := fun _ => some ['z']

/-- Witness for C2 at a concrete file, with a prior version overwritten. -/
theorem c2_inclusion_copy_witness :
    copyStep c2lib excludes c2dest "src/v2/doc.js" = some ['a'] :=
  c2_inclusion_copy c2lib c2dest "src/v2/doc.js" ['a'] (by decide) (by decide)

/-! ### Claim C3 -/

def c3lib : FileTree := fun p => if p ∈ patchTargets then some searchStr else none

def c3tpl : FileTree := fun _ => none

def c3dest : FileTree := fun _ => none

/-- Claim C3, counterexample: after a complete run the patch-target file
still contains an occurrence of the search string, because the search
string is a suffix of the replacement string; the claimed count of zero
is wrong whenever the generated file contained the search string. -/
theorem c3_counterexample :
    runOk (runSynth (some c3lib) c3tpl 0 0 c3dest) = true ∧
    (finalTreeOf (runSynth (some c3lib) c3tpl 0 0 c3dest)
        "src/v2/config_service_v2_client.js").map (countOcc searchStr) ≠ some 0 :=
  ⟨by decide, by decide⟩

/-- Claim C3 (amended): after a complete run, each patch-target file
generated with content `c` (and not overwritten by the template set)
holds exactly the replaced content, and its count of occurrences of the
replacement string is at least the pre-run count of occurrences of the
search string in `c`.  The zero-remaining-occurrences clause is dropped:
occurrences of the search string remain inside each inserted replacement
string. -/
theorem c3_patch_counts (lib tpl dest : FileTree) (e1 e2 : Int) (t : RelPath) (c : Content)
    (ht : t ∈ patchTargets) (hlib : lib t = some c) (htpl : tpl t = none)
    (hok : runOk (runSynth (some lib) tpl e1 e2 dest) = true) :
    finalTreeOf (runSynth (some lib) tpl e1 e2 dest) t =
      some (listReplace searchStr replStr c) ∧
    countOcc searchStr c ≤ countOcc replStr (listReplace searchStr replStr c) := by
  cases hrep : replaceStep searchStr replStr patchTargets (copyStep lib excludes dest) with
  | error dF => simp [runOk, runSynth, hrep] at hok
  | ok d2 =>
    have hfin : finalTreeOf (runSynth (some lib) tpl e1 e2 dest) = copyStep tpl [] d2 := by
      simp [finalTreeOf, runSynth, hrep]
    have hd1 : copyStep lib excludes dest t = some c :=
      copyStep_not_mem_some (target_not_excluded t ht) hlib
    have hd2t : d2 t = some (listReplace searchStr replStr c) :=
      replaceStep_at searchStr replStr patchTargets patchTargets_nodup _ d2 hrep t ht c hd1
    constructor
    · rw [hfin, copyStep_not_mem_none (by simp) htpl, hd2t]
    · exact countOcc_le_countOcc_replace replStr_ne_nil c

/-- Witness for the amended C3 at a concrete run. -/
theorem c3_patch_counts_witness :
    finalTreeOf (runSynth (some c3lib) c3tpl 0 0 c3dest) "src/v2/config_service_v2_client.js" =
      some (listReplace searchStr replStr searchStr) ∧
    countOcc searchStr searchStr ≤ countOcc replStr (listReplace searchStr replStr searchStr) :=
  c3_patch_counts c3lib c3tpl c3dest 0 0 "src/v2/config_service_v2_client.js" searchStr
    (by decide) (by decide) rfl (by decide)

/-! ### Claim C4 -/

/-- Claim C4, counterexample: the patch is not idempotent.  A file whose
content is exactly the search string is patched to the replacement
string, and a second application patches it again (the replacement
string contains the search string), prepending a further `../`. -/
theorem c4_counterexample :
    listReplace searchStr replStr (listReplace searchStr replStr searchStr) ≠
      listReplace searchStr replStr searchStr := by decide

/-- Claim C4 (amended): applying the replace operation twice equals
applying it once exactly for contents with no occurrence of the search
string (which the operation leaves unchanged); on any content containing
the search string a second application changes the file again. -/
theorem c4_replace_idempotent_iff (c : Content) :
    listReplace searchStr replStr (listReplace searchStr replStr c) =
      listReplace searchStr replStr c ↔ countOcc searchStr c = 0 := by
  constructor
  · intro h
    by_contra h0
    have h1 : 1 ≤ countOcc searchStr (listReplace searchStr replStr c) := by
      have hself := countOcc_le_replace_self searchStr_ne_nil ("../".toList) c
      rw [← replStr_eq_dotdot_append] at hself
      omega
    have hlen := congrArg List.length h
    rw [length_listReplace searchStr_shorter (listReplace searchStr replStr c)] at hlen
    have h3 : replStr.length - searchStr.length = 3 := by decide
    rw [h3] at hlen
    omega
  · intro h0
    rw [listReplace_eq_self replStr c h0]
    exact listReplace_eq_self replStr c h0

/-! ### Claim C5 -/

def c5lib : FileTree := fun _ => none

def c5wlib : FileTree := fun p => if p ∈ patchTargets then some searchStr else none

def c5tpl : FileTree := fun _ => none

def c5dest : FileTree := fun p => if p ∈ patchTargets then some searchStr else none

/-- Claim C5, counterexample: two complete runs with identical generator
and template output need not leave the same tree.  If the generated set
lacks a patch target, the patch step re-patches whatever the destination
already holds, so a second run prepends a further `../` to a target that
only exists in the destination. -/
theorem c5_counterexample :
    runOk (runSynth (some c5lib) c5tpl 0 0 c5dest) = true ∧
    runOk (runSynth (some c5lib) c5tpl 0 0
      (finalTreeOf (runSynth (some c5lib) c5tpl 0 0 c5dest))) = true ∧
    finalTreeOf (runSynth (some c5lib) c5tpl 0 0
        (finalTreeOf (runSynth (some c5lib) c5tpl 0 0 c5dest)))
      "src/v2/config_service_v2_client.js" ≠
    finalTreeOf (runSynth (some c5lib) c5tpl 0 0 c5dest)
      "src/v2/config_service_v2_client.js" :=
  ⟨by decide, by decide, by decide⟩

/-- Claim C5 (amended): provided the generated set contains every
patch-target file, both runs complete and running the whole procedure a
second time with the same generator and template output leaves the
destination tree byte-identical to the tree after the first run. -/
theorem c5_run_idempotent (lib tpl dest : FileTree) (e1 e2 e1' e2' : Int)
    (hlib : ∀ t ∈ patchTargets, lib t ≠ none) :
    runOk (runSynth (some lib) tpl e1 e2 dest) = true ∧
    ∀ q, finalTreeOf (runSynth (some lib) tpl e1' e2'
        (finalTreeOf (runSynth (some lib) tpl e1 e2 dest))) q =
      finalTreeOf (runSynth (some lib) tpl e1 e2 dest) q := by
  obtain ⟨hok1, hchar1⟩ := run_char lib tpl e1 e2 dest hlib
  obtain ⟨hok2, hchar2⟩ := run_char lib tpl e1' e2'
    (finalTreeOf (runSynth (some lib) tpl e1 e2 dest)) hlib
  refine ⟨hok1, ?_⟩
  intro q
  rw [hchar2 q, hchar1 q]
  cases htq : tpl q with
  | some tc => rfl
  | none =>
    simp only
    by_cases hqt : q ∈ patchTargets
    · simp only [if_pos hqt]
    · simp only [if_neg hqt]
      by_cases hqe : q ∈ excludes
      · rw [copyStep_mem hqe, copyStep_mem hqe, hchar1 q, htq]
        simp only [if_neg hqt]
        rw [copyStep_mem hqe]
      · cases hlq : lib q with
        | some c => rw [copyStep_not_mem_some hqe hlq, copyStep_not_mem_some hqe hlq]
        | none =>
          rw [copyStep_not_mem_none hqe hlq, copyStep_not_mem_none hqe hlq,
            hchar1 q, htq]
          simp only [if_neg hqt]
          rw [copyStep_not_mem_none hqe hlq]

/-- Witness for the amended C5 at a concrete run. -/
theorem c5_run_idempotent_witness :
    runOk (runSynth (some c5wlib) c5tpl 0 0 c5dest) = true ∧
    finalTreeOf (runSynth (some c5wlib) c5tpl 1 1
        (finalTreeOf (runSynth (some c5wlib) c5tpl 0 0 c5dest)))
      "src/v2/config_service_v2_client.js" =
    finalTreeOf (runSynth (some c5wlib) c5tpl 0 0 c5dest)
      "src/v2/config_service_v2_client.js" :=
  ⟨(c5_run_idempotent c5wlib c5tpl c5dest 0 0 1 1 (by decide)).1,
   (c5_run_idempotent c5wlib c5tpl c5dest 0 0 1 1 (by decide)).2 _⟩

/-! ### Claim C6 -/

/-- Claim C6: when the generation step fails, the run aborts at that
point: the trace holds only the generate step, no file is copied or
patched, and the destination tree is returned unchanged. -/
theorem c6_generate_failure_aborts (tpl : FileTree) (e1 e2 : Int) (dest : FileTree) :
    runSynth none tpl e1 e2 dest = ([Step.generate], RunResult.failed Step.generate dest) :=
  rfl

/-! ### Claim C7 -/

def c7lib : FileTree := fun _ => none

def c7tpl : FileTree := fun _ => none

def c7dest : FileTree := fun _ => none

/-- Claim C7: if a patch-target path is absent when the replace step
runs, the replace step fails with a file-not-found condition instead of
silently skipping it, and the run aborts: the template-copy and
post-process steps never start. -/
theorem c7_missing_target_fails (lib tpl dest : FileTree) (e1 e2 : Int) (t : RelPath)
    (ht : t ∈ patchTargets) (hmiss : copyStep lib excludes dest t = none) :
    (runSynth (some lib) tpl e1 e2 dest).1 = [Step.generate, Step.copy, Step.patch] ∧
    ∃ dF, (runSynth (some lib) tpl e1 e2 dest).2 = RunResult.failed Step.patch dF := by
  obtain ⟨dF, hdF⟩ := replaceStep_error_of_missing searchStr replStr patchTargets
    (copyStep lib excludes dest) t ht hmiss
  exact ⟨by simp [runSynth, hdF], ⟨dF, by simp [runSynth, hdF]⟩⟩

/-- Witness for C7 at a concrete run with an empty generated set. -/
theorem c7_missing_target_fails_witness :
    (runSynth (some c7lib) c7tpl 0 0 c7dest).1 = [Step.generate, Step.copy, Step.patch] ∧
    ∃ dF, (runSynth (some c7lib) c7tpl 0 0 c7dest).2 = RunResult.failed Step.patch dF :=
  c7_missing_target_fails c7lib c7tpl c7dest 0 0 "src/v2/config_service_v2_client.js"
    (by decide) (by decide)

/-! ### Claim C8 -/

def c8lib : FileTree := fun p => if p ∈ patchTargets then some ['x'] else none

def c8tpl : FileTree := fun _ => none

def c8dest : FileTree := fun _ => none

/-- Claim C8: the run is a fixed linear sequence: its outcome does not
depend on the exit codes of the two post-processing commands (they are
never inspected), and a complete run executes the five steps exactly
once each in the order generate, copy, patch, template-copy,
post-process. -/
theorem c8_linear_run (gen : Option FileTree) (tpl : FileTree) (e1 e2 e1' e2' : Int)
    (dest : FileTree) :
    runSynth gen tpl e1 e2 dest = runSynth gen tpl e1' e2' dest ∧
    (runOk (runSynth gen tpl e1 e2 dest) = true →
      (runSynth gen tpl e1 e2 dest).1 =
        [Step.generate, Step.copy, Step.patch, Step.templateCopy, Step.postProcess]) := by
  refine ⟨rfl, ?_⟩
  intro h
  cases gen with
  | none => simp [runOk, runSynth] at h
  | some lib =>
    cases hrep : replaceStep searchStr replStr patchTargets (copyStep lib excludes dest) with
    | error dF => simp [runOk, runSynth, hrep] at h
    | ok d2 => simp [runSynth, hrep]

/-- Witness for C8 at a concrete complete run with distinct exit codes. -/
theorem c8_linear_run_witness :
    runSynth (some c8lib) c8tpl 0 1 c8dest = runSynth (some c8lib) c8tpl 2 3 c8dest ∧
    (runSynth (some c8lib) c8tpl 0 1 c8dest).1 =
      [Step.generate, Step.copy, Step.patch, Step.templateCopy, Step.postProcess] :=
  ⟨(c8_linear_run (some c8lib) c8tpl 0 1 2 3 c8dest).1,
   (c8_linear_run (some c8lib) c8tpl 0 1 2 3 c8dest).2 (by decide)⟩

/-! ### Claim C9 -/

/-- Claim C9: the replace operation is a literal substring replacement:
a content with no occurrence of the exact character sequence of the
search string is left completely unchanged; no character of the search
string acts as a pattern metacharacter (see the witness, whose content
would match the search string read as a regular expression). -/
theorem c9_literal_replace (c : Content) (h : countOcc searchStr c = 0) :
    listReplace searchStr replStr c = c :=
  listReplace_eq_self replStr c h

/-- Witness for C9: `ab/cd/package.json` matches the search string read
as a regular expression (dots as wildcards) but has no literal
occurrence, and is left unchanged. -/
theorem c9_literal_replace_witness :
    countOcc searchStr "ab/cd/package.json".toList = 0 ∧
    listReplace searchStr replStr "ab/cd/package.json".toList = "ab/cd/package.json".toList :=
  ⟨by decide, c9_literal_replace ("ab/cd/package.json".toList) (by decide)⟩

/-! ### Claim C10 -/

def c10lib : FileTree := fun p => if p ∈ patchTargets then some ['x'] else none

def c10dest : FileTree := fun _ => none

/-- Claim C10: no patch-target path is in the exclusion list, so for any
generated set containing all three targets, the copy step leaves every
target present and the replace step cannot hit its file-not-found
branch: it returns successfully. -/
theorem c10_targets_not_excluded_safe :
    (∀ t ∈ patchTargets, t ∉ excludes) ∧
    ∀ lib dest : FileTree, (∀ t ∈ patchTargets, lib t ≠ none) →
      ∃ d2, replaceStep searchStr replStr patchTargets (copyStep lib excludes dest) =
        Except.ok d2 := by
  refine ⟨target_not_excluded, ?_⟩
  intro lib dest h
  apply replaceStep_ok_exists
  intro q hq
  cases hlq : lib q with
  | none => exact absurd hlq (h q hq)
  | some c =>
    rw [copyStep_not_mem_some (target_not_excluded q hq) hlq]
    exact Option.some_ne_none c

/-- Witness for C10 at a concrete generated set containing the targets. -/
theorem c10_targets_not_excluded_safe_witness :
    ("src/v2/config_service_v2_client.js" ∈ patchTargets →
      "src/v2/config_service_v2_client.js" ∉ excludes) ∧
    ∃ d2, replaceStep searchStr replStr patchTargets (copyStep c10lib excludes c10dest) =
      Except.ok d2 :=
  ⟨fun h => c10_targets_not_excluded_safe.1 _ h,
   c10_targets_not_excluded_safe.2 c10lib c10dest (by decide)⟩

end SynthSpec
